import Mathlib

/-!
Verification of the resource-management core of the youtube-i service:
the request semaphore (admission gate), the retrying call executor, the
YouTube instance pool, the growing channel-video cache with its pagination
loops, the continuation-token walker, and the TTL caches.

Each definition is a shallow embedding of the corresponding JavaScript
function in `src/handlers/channelHandlers.js` or the channel-all-videos
module.  JavaScript numbers holding counters that are clamped with
`Math.max(0, x)` are modelled as `Int` with an explicit `max 0`;
monotonically increasing counters are `Nat`.  Logical concurrency is
single-threaded and cooperative (interleaving only at `await` points), so
shared-state components are modelled as explicit state machines whose
steps are the atomic (synchronous) sections of the code, and reachability
is quantification over finite traces of steps.
-/

namespace YoutubeI

/-! ## Configuration constants (the CONFIG object) -/

def POOL_SIZE : Nat := 5
def MAX_CONCURRENT_REQUESTS : Nat := 20
def MAX_REQUESTS_PER_INSTANCE : Nat := 4
def INSTANCE_MAX_REQUESTS : Nat := 100
def INSTANCE_MAX_AGE : Nat := 1000 * 60 * 15
def MAX_RETRIES : Nat := 2
def CACHE_EXPIRY : Nat := 1000 * 60 * 30
def MAX_RESULTS_PER_SEARCH : Nat := 500

/-! ## RequestSemaphore (admission gate)

State of the `RequestSemaphore` class: `maxConcurrent` is fixed at
construction, `currentCount` is a JS number (decremented with a
`Math.max(0, _)` clamp, hence `Int`), and `waitingQueue` is the FIFO list
of pending resolver callbacks, modelled by waiter identifiers. -/

structure RequestSemaphore where
  maxConcurrent : Nat
  currentCount : Int
  waitingQueue : List Nat
deriving DecidableEq, Repr

def RequestSemaphore.init (maxConcurrent : Nat) : RequestSemaphore :=
  { maxConcurrent := maxConcurrent, currentCount := 0, waitingQueue := [] }

/-- The synchronous body of `RequestSemaphore.acquire`: grant a slot when
`currentCount < maxConcurrent`, otherwise append the caller to the FIFO
queue. -/
def RequestSemaphore.acquireStep (s : RequestSemaphore) (waiter : Nat) : RequestSemaphore :=
  if s.currentCount < (s.maxConcurrent : Int) then
    { s with currentCount := s.currentCount + 1 }
  else
    { s with waitingQueue := s.waitingQueue ++ [waiter] }

/-- The body of `RequestSemaphore.release`: hand the slot to the oldest
waiter when the queue is non-empty (count unchanged), otherwise decrement
with the `Math.max(0, _)` clamp. -/
def RequestSemaphore.releaseStep (s : RequestSemaphore) : RequestSemaphore :=
  match s.waitingQueue with
  | _ :: rest => { s with waitingQueue := rest }
  | [] => { s with currentCount := max 0 (s.currentCount - 1) }

inductive SemOp where
  | acquire (waiter : Nat)
  | release
deriving DecidableEq, Repr

def semStep (s : RequestSemaphore) : SemOp → RequestSemaphore
  | .acquire w => s.acquireStep w
  | .release => s.releaseStep

/-- A state reachable by an arbitrary finite interleaving of acquire and
release calls, starting from a fresh semaphore. -/
def semRun (maxConcurrent : Nat) (ops : List SemOp) : RequestSemaphore :=
  ops.foldl semStep (RequestSemaphore.init maxConcurrent)

def semInv (s : RequestSemaphore) : Prop :=
  0 ≤ s.currentCount ∧ s.currentCount ≤ (s.maxConcurrent : Int) ∧
    (s.waitingQueue = [] ∨ s.currentCount = (s.maxConcurrent : Int))

theorem semInv_step (s : RequestSemaphore) (op : SemOp) (h : semInv s) :
    semInv (semStep s op) := by
  obtain ⟨m, c, q⟩ := s
  obtain ⟨h0, hle, hq⟩ := h
  simp only [semInv] at *
  cases op with
  | acquire w =>
    simp only [semStep, RequestSemaphore.acquireStep]
    by_cases hc : c < (m : Int)
    · simp only [hc, if_true]
      refine ⟨by omega, by omega, ?_⟩
      rcases hq with hq | hq
      · exact Or.inl hq
      · exact absurd hq (by omega)
    · simp only [hc, if_false]
      exact ⟨h0, hle, Or.inr (by omega)⟩
  | release =>
    simp only [semStep, RequestSemaphore.releaseStep]
    cases q with
    | nil =>
      refine ⟨?_, ?_, Or.inl rfl⟩
      · show (0 : Int) ≤ max 0 (c - 1)
        omega
      · show (max 0 (c - 1) : Int) ≤ (m : Int)
        omega
    | cons x rest =>
      rcases hq with hq | hq
      · simp at hq
      · by_cases hr : rest = []
        · exact ⟨h0, hle, Or.inl hr⟩
        · exact ⟨h0, hle, Or.inr hq⟩

theorem semInv_run (maxConcurrent : Nat) (ops : List SemOp) :
    semInv (semRun maxConcurrent ops) := by
  have hmax : ∀ (l : List SemOp) (s : RequestSemaphore),
      semInv s → semInv (l.foldl semStep s) := by
    intro l
    induction l with
    | nil => intro s hs; exact hs
    | cons op rest ih => intro s hs; exact ih _ (semInv_step s op hs)
  refine hmax ops _ ⟨le_refl 0, ?_, Or.inl rfl⟩
  show (0 : Int) ≤ (maxConcurrent : Int)
  omega

/-- C3: in every state reachable by any interleaving of
`RequestSemaphore.acquire` and `RequestSemaphore.release` calls,
`currentCount` is at most `maxConcurrent`, and the waiting queue is
non-empty only when `currentCount` equals `maxConcurrent`. -/
theorem C3_semaphore_invariant (maxConcurrent : Nat) (ops : List SemOp) :
    (semRun maxConcurrent ops).currentCount ≤ (maxConcurrent : Int) ∧
      ((semRun maxConcurrent ops).waitingQueue = [] ∨
        (semRun maxConcurrent ops).currentCount = (maxConcurrent : Int)) := by
  obtain ⟨_, hle, hq⟩ := semInv_run maxConcurrent ops
  have hm : (semRun maxConcurrent ops).maxConcurrent = maxConcurrent := by
    have : ∀ (l : List SemOp) (s : RequestSemaphore),
        (l.foldl semStep s).maxConcurrent = s.maxConcurrent := by
      intro l
      induction l with
      | nil => intro s; rfl
      | cons op rest ih =>
        intro s
        rw [List.foldl_cons, ih]
        cases op with
        | acquire w =>
          simp only [semStep, RequestSemaphore.acquireStep]
          split <;> rfl
        | release =>
          simp only [semStep, RequestSemaphore.releaseStep]
          split <;> rfl
    exact this ops _
  rw [hm] at hle hq
  exact ⟨hle, hq⟩

/-! ## executeWithInstance (retrying call executor)

The executor acquires one semaphore slot, runs the retry loop
`while (attempts <= retries)`, and releases the slot in a `finally`
block.  An attempt is parameterized by the behaviour of the upstream
call: `op n` is the outcome of attempt number `n` (a thrown error and a
timeout are treated identically, both surfacing as `Except.error`), and
`acq n` is `some e` when `instancePool.acquire()` itself throws on
attempt `n` (that error escapes the retry loop, since the inner
`try/catch` only wraps the raced operation).  The resource trace of one
invocation is recorded as an event list. -/

inductive ExecEvent where
  | semAcquire
  | semRelease
  | poolAcquire (attempt : Nat)
  | poolRelease (attempt : Nat) (hadError : Bool)
deriving DecidableEq, Repr

inductive ExecErr where
  | fromOp (e : String)
  | fromAcquire (e : String)
  | undefinedError
deriving DecidableEq, Repr

/-- The `throw lastError` statement reached when the retry loop exhausts
all attempts (throwing an undefined `lastError` is impossible in practice
since `retries ≥ 0` forces at least one attempt, but it is modelled). -/
def throwLast {α : Type} (lastError : Option String) : Except ExecErr α × List ExecEvent :=
  match lastError with
  | some e => (.error (.fromOp e), [])
  | none => (.error .undefinedError, [])

/-- The body of one iteration of the retry loop: acquire a session handle
(which may itself throw), race the operation against the timeout, release
the handle with the appropriate `hadError` flag, and either return,
or record `lastError` and continue. -/
def attemptLoop {α : Type} (acq : Nat → Option String) (op : Nat → Except String α)
    (retries attempts : Nat) (lastError : Option String) :
    Except ExecErr α × List ExecEvent :=
  if _h : attempts ≤ retries then
    match acq attempts with
    | some e => (.error (.fromAcquire e), [])
    | none =>
      match op attempts with
      | .ok a => (.ok a, [.poolAcquire attempts, .poolRelease attempts false])
      | .error e =>
        let rest := attemptLoop acq op retries (attempts + 1) (some e)
        (rest.1, .poolAcquire attempts :: .poolRelease attempts true :: rest.2)
  else
    throwLast lastError
termination_by retries + 1 - attempts
decreasing_by omega

/-- `executeWithInstance`: semaphore slot acquired first, retry loop,
semaphore slot released in the `finally` block. -/
def executeWithInstance {α : Type} (acq : Nat → Option String) (op : Nat → Except String α)
    (retries : Nat) : Except ExecErr α × List ExecEvent :=
  let r := attemptLoop acq op retries 0 none
  (r.1, .semAcquire :: r.2 ++ [.semRelease])

theorem attemptLoop_allFail {α : Type} (f : Nat → String) (retries : Nat) :
    ∀ n attempts lastError, retries - attempts = n → attempts ≤ retries →
      attemptLoop (α := α) (fun _ => none) (fun k => .error (f k)) retries attempts lastError =
        (.error (.fromOp (f retries)),
          (List.range' attempts (retries + 1 - attempts)).flatMap
            fun i => [.poolAcquire i, .poolRelease i true]) := by
  intro n
  induction n with
  | zero =>
    intro attempts lastError hsub hle
    have ha : attempts = retries := by omega
    subst ha
    rw [attemptLoop.eq_def]
    simp only [hle, dif_pos, if_true, dite_true]
    rw [attemptLoop.eq_def]
    have h2 : ¬ (attempts + 1 ≤ attempts) := by omega
    simp only [h2, dif_neg, if_false, dite_false]
    have hr : attempts + 1 - attempts = 1 := by omega
    rw [hr]
    rfl
  | succ n ih =>
    intro attempts lastError hsub hle
    have hlt : attempts < retries := by omega
    rw [attemptLoop.eq_def]
    simp only [hle, dif_pos]
    rw [ih (attempts + 1) (some (f attempts)) (by omega) (by omega)]
    have hr : retries + 1 - attempts = (retries + 1 - (attempts + 1)) + 1 := by omega
    rw [hr, List.range'_succ]
    rfl

/-- C1: for an operation whose every attempt fails, `executeWithInstance`
makes exactly `retries + 1` attempts, acquiring and releasing a session
handle with `hadError = true` on each, and propagates the error of the
last attempt (attempt number `retries`) to the caller. -/
theorem C1_retry_exhaustion {α : Type} (f : Nat → String) (retries : Nat) :
    executeWithInstance (α := α) (fun _ => none) (fun k => .error (f k)) retries =
      (.error (.fromOp (f retries)),
        .semAcquire ::
          ((List.range (retries + 1)).flatMap
            fun i => [.poolAcquire i, .poolRelease i true]) ++ [.semRelease]) := by
  unfold executeWithInstance
  rw [attemptLoop_allFail f retries (retries - 0) 0 none rfl (Nat.zero_le retries)]
  rw [List.range_eq_range']
  rfl

theorem attemptLoop_no_sem {α : Type} (acq : Nat → Option String) (op : Nat → Except String α)
    (retries : Nat) :
    ∀ n attempts lastError, retries + 1 - attempts = n →
      ExecEvent.semAcquire ∉ (attemptLoop acq op retries attempts lastError).2 ∧
      ExecEvent.semRelease ∉ (attemptLoop acq op retries attempts lastError).2 := by
  intro n
  induction n with
  | zero =>
    intro attempts lastError hsub
    have hgt : ¬ (attempts ≤ retries) := by omega
    rw [attemptLoop.eq_def]
    simp only [hgt, dif_neg, if_false, dite_false]
    cases lastError <;> simp [throwLast]
  | succ n ih =>
    intro attempts lastError hsub
    by_cases hle : attempts ≤ retries
    · rw [attemptLoop.eq_def]
      simp only [hle, dif_pos]
      cases hacq : acq attempts with
      | some e => simp
      | none =>
        cases hop : op attempts with
        | ok a => simp
        | error e =>
          have := ih (attempts + 1) (some e) (by omega)
          simp only [List.mem_cons]
          constructor
          · rintro (h | h | h) <;> first | exact ExecEvent.noConfusion h | exact this.1 h
          · rintro (h | h | h) <;> first | exact ExecEvent.noConfusion h | exact this.2 h
    · rw [attemptLoop.eq_def]
      simp only [hle, dif_neg, if_false, dite_false]
      cases lastError <;> simp [throwLast]

/-- C2: for every invocation of `executeWithInstance`, whatever the
behaviour of the operation and of session-handle acquisition (success,
thrown error on any attempt, or a failure inside `instancePool.acquire`),
the admission-gate semaphore slot acquired at the start is released
exactly once, as the final action after all retry attempts have
finished. -/
theorem C2_semaphore_released_once {α : Type} (acq : Nat → Option String)
    (op : Nat → Except String α) (retries : Nat) :
    (executeWithInstance acq op retries).2.count ExecEvent.semRelease = 1 ∧
    (executeWithInstance acq op retries).2.getLast? = some ExecEvent.semRelease ∧
    (executeWithInstance acq op retries).2.count ExecEvent.semAcquire = 1 ∧
    (executeWithInstance acq op retries).2.head? = some ExecEvent.semAcquire := by
  obtain ⟨hna, hnr⟩ :=
    attemptLoop_no_sem acq op retries (retries + 1 - 0) 0 none rfl
  unfold executeWithInstance
  refine ⟨?_, ?_, ?_, ?_⟩
  · simp only [List.count_cons, List.count_append]
    rw [List.count_eq_zero_of_not_mem hnr]
    rfl
  · show (ExecEvent.semAcquire :: ((attemptLoop acq op retries 0 none).2 ++ [ExecEvent.semRelease])).getLast? = _
    rw [show ExecEvent.semAcquire :: ((attemptLoop acq op retries 0 none).2 ++ [ExecEvent.semRelease]) =
      (ExecEvent.semAcquire :: (attemptLoop acq op retries 0 none).2) ++ [ExecEvent.semRelease] from rfl]
    rw [List.getLast?_concat]
  · simp only [List.count_cons, List.count_append]
    rw [List.count_eq_zero_of_not_mem hna]
    rfl
  · rfl

/-! ## YouTubeInstancePool

Per-instance statistics as stored in `instanceStats`.  `activeRequests`
is decremented with a `Math.max(0, _)` clamp, hence `Int`; the other
counters only grow. -/

structure InstanceStats where
  createdAt : Nat
  requestCount : Nat
  activeRequests : Int
  errors : Nat
  lastUsed : Nat
deriving DecidableEq, Repr

def freshStats (now : Nat) : InstanceStats :=
  { createdAt := now, requestCount := 0, activeRequests := 0, errors := 0, lastUsed := now }

/-- The refresh criterion in `getInstance`:
`requestCount >= INSTANCE_MAX_REQUESTS || Date.now() - createdAt >= INSTANCE_MAX_AGE`. -/
def needsRefresh (now : Nat) (st : InstanceStats) : Bool :=
  st.requestCount ≥ INSTANCE_MAX_REQUESTS || now - st.createdAt ≥ INSTANCE_MAX_AGE

/-- The load score `activeRequests + errors * 0.5` computed over ℚ. -/
def loadScore (st : InstanceStats) : ℚ :=
  (st.activeRequests : ℚ) + (st.errors : ℚ) * (1 / 2)

/-- Pool state.  `instances` is the ordered id list, `instanceStats` the
id-keyed stats map.  `createsLeft` counts the `createInstance` promises
scheduled by `initialize` that have not yet settled (the `initPromise`
latch makes `initialize` schedule exactly `POOL_SIZE` of them, once ever).
`pendingAcquire` records tasks that have completed the selection round
inside `getInstance` but whose `acquire` continuation (the
`activeRequests++` after the `await`) has not run yet. -/
structure PoolState where
  createsLeft : Nat
  instances : List Nat
  instanceStats : List (Nat × InstanceStats)
  nextId : Nat
  pendingAcquire : List (Nat × Nat)
deriving DecidableEq, Repr

def poolInit : PoolState :=
  { createsLeft := POOL_SIZE, instances := [], instanceStats := [], nextId := 0,
    pendingAcquire := [] }

/-- The selection loop in `getInstance`: iterate over `instances`, skip
ids with no stats, skip instances at per-instance capacity, skip (and
schedule a refresh of) idle instances due for refresh, and keep the first
instance with the strictly lowest load score (`lowestLoad` starts at
Infinity, modelled by the `none` accumulator). -/
def selectLoop (now : Nat) (stats : List (Nat × InstanceStats)) :
    List Nat → Option (Nat × ℚ) → Option (Nat × ℚ)
  | [], best => best
  | id :: rest, best =>
    match stats.lookup id with
    | none => selectLoop now stats rest best
    | some st =>
      if st.activeRequests ≥ (MAX_REQUESTS_PER_INSTANCE : Int) then
        selectLoop now stats rest best
      else if needsRefresh now st && st.activeRequests == 0 then
        selectLoop now stats rest best
      else
        match best with
        | none => selectLoop now stats rest (some (id, loadScore st))
        | some (bid, bscore) =>
          if loadScore st < bscore then selectLoop now stats rest (some (id, loadScore st))
          else selectLoop now stats rest (some (bid, bscore))

/-- The result of one synchronous selection round of `getInstance`. -/
def selectBest (now : Nat) (s : PoolState) : Option Nat :=
  (selectLoop now s.instanceStats s.instances none).map (fun p => p.1)

/-- Update the stats entry for `id` (a no-op when absent, mirroring the
`if (stats)` guards in the source). -/
def updateStats (stats : List (Nat × InstanceStats)) (id : Nat)
    (f : InstanceStats → InstanceStats) : List (Nat × InstanceStats) :=
  stats.map fun p => if p.1 = id then (p.1, f p.2) else p

/-- One `createInstance` promise scheduled by `initialize` settles:
on success the new instance is pushed (stats registered inside
`createInstance`), on failure it is only logged. -/
def PoolState.createDone (s : PoolState) (ok : Bool) (now : Nat) : PoolState :=
  if s.createsLeft = 0 then s
  else if ok then
    { s with createsLeft := s.createsLeft - 1,
             instances := s.instances ++ [s.nextId],
             instanceStats := s.instanceStats ++ [(s.nextId, freshStats now)],
             nextId := s.nextId + 1 }
  else { s with createsLeft := s.createsLeft - 1 }

/-- A task finishes the selection round of `getInstance`; if an instance
was selected the task is now suspended between `getInstance` returning
and the increment in `acquire` (a real `await` boundary in the source);
if none qualified the task retries later (another suspension). -/
def PoolState.selectStep (s : PoolState) (taskId now : Nat) : PoolState :=
  match selectBest now s with
  | some id => { s with pendingAcquire := s.pendingAcquire ++ [(taskId, id)] }
  | none => s

/-- The continuation of `acquire` after its `await`:
`stats.activeRequests++; stats.lastUsed = Date.now()`. -/
def PoolState.incrStep (s : PoolState) (taskId now : Nat) : PoolState :=
  match s.pendingAcquire.lookup taskId with
  | some id =>
    { s with pendingAcquire := s.pendingAcquire.filter (fun p => p.1 ≠ taskId),
             instanceStats := updateStats s.instanceStats id fun st =>
               { st with activeRequests := st.activeRequests + 1, lastUsed := now } }
  | none => s

/-- An `acquire` whose selection and increment run back to back, with no
other task interleaved between them. -/
def PoolState.acquireAtomic (s : PoolState) (taskId now : Nat) : PoolState :=
  (s.selectStep taskId now).incrStep taskId now

/-- The per-stats effect of `YouTubeInstancePool.release(instanceId, hadError)`:
`activeRequests = Math.max(0, activeRequests - 1); requestCount++;
if (hadError) errors++`. -/
def releaseStats (st : InstanceStats) (hadError : Bool) : InstanceStats :=
  { st with activeRequests := max 0 (st.activeRequests - 1),
            requestCount := st.requestCount + 1,
            errors := st.errors + (if hadError then 1 else 0) }

def PoolState.release (s : PoolState) (id : Nat) (hadError : Bool) : PoolState :=
  { s with instanceStats := updateStats s.instanceStats id (fun st => releaseStats st hadError) }

/-- `refreshInstance(instanceId)` completes: when the id is still present
and `createInstance` succeeded, the old instance is replaced in place
(old stats deleted, fresh stats registered); on failure the old instance
stays.  (A concurrent double refresh of the same id can additionally
leave an orphaned fresh stats entry in the JS code; orphaned fresh
entries have zeroed counters and do not affect the properties below.) -/
def PoolState.refreshDone (s : PoolState) (id : Nat) (ok : Bool) (now : Nat) : PoolState :=
  if s.instances.contains id then
    if ok then
      { s with instances := s.instances.map (fun i => if i = id then s.nextId else i),
               instanceStats :=
                 (s.instanceStats.filter (fun p => p.1 ≠ id)) ++ [(s.nextId, freshStats now)],
               nextId := s.nextId + 1 }
    else s
  else s

inductive PoolOp where
  | createDone (ok : Bool) (now : Nat)
  | selectStep (taskId now : Nat)
  | incrStep (taskId now : Nat)
  | acquireAtomic (taskId now : Nat)
  | release (id : Nat) (hadError : Bool)
  | refreshDone (id : Nat) (ok : Bool) (now : Nat)
deriving DecidableEq, Repr

def poolStep (s : PoolState) : PoolOp → PoolState
  | .createDone ok now => s.createDone ok now
  | .selectStep t now => s.selectStep t now
  | .incrStep t now => s.incrStep t now
  | .acquireAtomic t now => s.acquireAtomic t now
  | .release id hadError => s.release id hadError
  | .refreshDone id ok now => s.refreshDone id ok now

/-- A pool state reachable by an arbitrary interleaving of the pool
operations, at the granularity of the suspension points of the source. -/
def poolRun (ops : List PoolOp) : PoolState :=
  ops.foldl poolStep poolInit

/-- Operations in which `acquire` runs atomically (no other task step
between its selection round and its increment). -/
def PoolOp.isAtomic : PoolOp → Bool
  | .selectStep _ _ => false
  | .incrStep _ _ => false
  | _ => true

/-! ### Pool invariants (C4, C10) -/

theorem poolSize_step (s : PoolState) (op : PoolOp)
    (h : s.instances.length + s.createsLeft ≤ POOL_SIZE) :
    (poolStep s op).instances.length + (poolStep s op).createsLeft ≤ POOL_SIZE := by
  cases op with
  | createDone ok now =>
    simp only [poolStep, PoolState.createDone]
    split
    · exact h
    · split
      · dsimp only
        simp only [List.length_append, List.length_cons, List.length_nil]
        omega
      · dsimp only
        omega
  | selectStep t now =>
    simp only [poolStep, PoolState.selectStep]
    split <;> exact h
  | incrStep t now =>
    simp only [poolStep, PoolState.incrStep]
    split <;> exact h
  | acquireAtomic t now =>
    simp only [poolStep, PoolState.acquireAtomic, PoolState.selectStep, PoolState.incrStep]
    split <;> split <;> exact h
  | release id hadError =>
    exact h
  | refreshDone id ok now =>
    simp only [poolStep, PoolState.refreshDone]
    split
    · split
      · simp only [List.length_map]
        exact h
      · exact h
    · exact h

theorem poolSize_run (ops : List PoolOp) :
    (poolRun ops).instances.length + (poolRun ops).createsLeft ≤ POOL_SIZE := by
  have haux : ∀ (l : List PoolOp) (s : PoolState),
      s.instances.length + s.createsLeft ≤ POOL_SIZE →
      (l.foldl poolStep s).instances.length + (l.foldl poolStep s).createsLeft ≤ POOL_SIZE := by
    intro l
    induction l with
    | nil => intro s hs; exact hs
    | cons op rest ih => intro s hs; exact ih _ (poolSize_step s op hs)
  exact haux ops poolInit (by simp [poolInit, POOL_SIZE])

/-- Keyed lookup in an assoc list with distinct keys finds exactly the
member entry. -/
theorem lookup_eq_of_mem {stats : List (Nat × InstanceStats)}
    (hnd : (stats.map (fun p => p.1)).Nodup) {q : Nat × InstanceStats} (hq : q ∈ stats) :
    stats.lookup q.1 = some q.2 := by
  induction stats with
  | nil => cases hq
  | cons hd tl ih =>
    simp only [List.map_cons, List.nodup_cons] at hnd
    rcases List.mem_cons.mp hq with hq | hq
    · subst hq
      simp [List.lookup]
    · have hne : q.1 ≠ hd.1 := by
        intro hcontra
        exact hnd.1 (hcontra ▸ List.mem_map_of_mem (fun p => p.1) hq)
      have hne2 : (q.1 == hd.1) = false := beq_eq_false_iff_ne.mpr hne
      simp only [List.lookup, hne2]
      exact ih hnd.2 hq

theorem updateStats_keys (stats : List (Nat × InstanceStats)) (id : Nat)
    (f : InstanceStats → InstanceStats) :
    (updateStats stats id f).map (fun p => p.1) = stats.map (fun p => p.1) := by
  simp only [updateStats, List.map_map]
  congr 1
  funext p
  by_cases hp : p.1 = id <;> simp [hp]

theorem mem_updateStats {stats : List (Nat × InstanceStats)} {id : Nat}
    {f : InstanceStats → InstanceStats} {p : Nat × InstanceStats}
    (hp : p ∈ updateStats stats id f) :
    (p ∈ stats ∧ p.1 ≠ id) ∨ ∃ q ∈ stats, q.1 = id ∧ p = (id, f q.2) := by
  simp only [updateStats, List.mem_map] at hp
  obtain ⟨q, hq, hpq⟩ := hp
  by_cases hqid : q.1 = id
  · right
    refine ⟨q, hq, hqid, ?_⟩
    rw [← hpq]
    simp [hqid]
  · left
    rw [← hpq]
    simp only [hqid, if_false]
    exact ⟨hq, hqid⟩

theorem selectLoop_qualifies (now : Nat) (stats : List (Nat × InstanceStats)) :
    ∀ (ids : List Nat) (best : Option (Nat × ℚ)) (r : Nat × ℚ),
      (∀ b, best = some b → ∃ st, stats.lookup b.1 = some st ∧
          st.activeRequests < (MAX_REQUESTS_PER_INSTANCE : Int)) →
      selectLoop now stats ids best = some r →
      ∃ st, stats.lookup r.1 = some st ∧
        st.activeRequests < (MAX_REQUESTS_PER_INSTANCE : Int) := by
  intro ids
  induction ids with
  | nil =>
    intro best r hbest hsel
    exact hbest r hsel
  | cons id rest ih =>
    intro best r hbest hsel
    simp only [selectLoop] at hsel
    split at hsel
    · exact ih best r hbest hsel
    · rename_i st hlk
      split at hsel
      · exact ih best r hbest hsel
      · rename_i hcap
        split at hsel
        · exact ih best r hbest hsel
        · split at hsel
          · refine ih _ r ?_ hsel
            intro b hb
            cases hb
            exact ⟨st, hlk, by omega⟩
          · rename_i bid bscore
            split at hsel
            · refine ih _ r ?_ hsel
              intro b hb
              cases hb
              exact ⟨st, hlk, by omega⟩
            · refine ih _ r ?_ hsel
              intro b hb
              cases hb
              exact hbest (bid, bscore) rfl

theorem selectBest_qualifies (now : Nat) (s : PoolState) (id : Nat)
    (h : selectBest now s = some id) :
    ∃ st, s.instanceStats.lookup id = some st ∧
      st.activeRequests < (MAX_REQUESTS_PER_INSTANCE : Int) := by
  simp only [selectBest, Option.map_eq_some'] at h
  obtain ⟨r, hr, hid⟩ := h
  subst hid
  exact selectLoop_qualifies now s.instanceStats s.instances none r (by intro b hb; cases hb) hr

/-- The pool invariant maintained under atomic acquires: bounded total
size, no pending half-finished acquire, distinct stats keys below the id
counter, and every active-request counter at or below the per-instance
cap. -/
def poolInv (s : PoolState) : Prop :=
  s.instances.length + s.createsLeft ≤ POOL_SIZE ∧
  s.pendingAcquire = [] ∧
  (s.instanceStats.map (fun p => p.1)).Nodup ∧
  (∀ p ∈ s.instanceStats, p.1 < s.nextId) ∧
  (∀ p ∈ s.instanceStats, p.2.activeRequests ≤ (MAX_REQUESTS_PER_INSTANCE : Int))

theorem poolInv_step (s : PoolState) (op : PoolOp) (hat : op.isAtomic = true)
    (h : poolInv s) : poolInv (poolStep s op) := by
  obtain ⟨hsize, hpend, hnd, hkey, hact⟩ := h
  have hsize2 := poolSize_step s op hsize
  cases op with
  | createDone ok now =>
    refine ⟨hsize2, ?_, ?_, ?_, ?_⟩ <;>
      simp only [poolStep, PoolState.createDone] <;> split
    · exact hpend
    · split <;> exact hpend
    · exact hnd
    · split
      · simp only [List.map_append, List.map_cons, List.map_nil]
        rw [List.nodup_append]
        refine ⟨hnd, List.nodup_singleton _, ?_⟩
        intro a ha hb
        simp only [List.mem_singleton] at hb
        subst hb
        obtain ⟨p, hp, hpa⟩ := List.mem_map.mp ha
        exact absurd (hpa ▸ hkey p hp) (lt_irrefl _)
      · exact hnd
    · exact hkey
    · split
      · intro p hp
        rcases List.mem_append.mp hp with hp | hp
        · exact Nat.lt_succ_of_lt (hkey p hp)
        · simp only [List.mem_singleton] at hp
          subst hp
          exact Nat.lt_succ_self _
      · exact hkey
    · exact hact
    · split
      · intro p hp
        rcases List.mem_append.mp hp with hp | hp
        · exact hact p hp
        · simp only [List.mem_singleton] at hp
          subst hp
          simp [freshStats, MAX_REQUESTS_PER_INSTANCE]
      · exact hact
  | selectStep t now => simp [PoolOp.isAtomic] at hat
  | incrStep t now => simp [PoolOp.isAtomic] at hat
  | acquireAtomic t now =>
    simp only [poolStep, PoolState.acquireAtomic, PoolState.selectStep]
    cases hsel : selectBest now s with
    | none =>
      simp only [PoolState.incrStep, hpend]
      exact ⟨hsize, hpend, hnd, hkey, hact⟩
    | some id =>
      obtain ⟨st, hlk, hcap⟩ := selectBest_qualifies now s id hsel
      simp only [PoolState.incrStep, hpend, List.nil_append, List.lookup, beq_self_eq_true]
      refine ⟨hsize, by simp, ?_, ?_, ?_⟩
      · dsimp only
        rw [updateStats_keys]
        exact hnd
      · intro p hp
        dsimp only at hp
        rcases mem_updateStats hp with ⟨hp, _⟩ | ⟨q, hq, hqid, hpq⟩
        · exact hkey p hp
        · subst hpq
          exact hqid ▸ hkey q hq
      · intro p hp
        dsimp only at hp
        rcases mem_updateStats hp with ⟨hp, _⟩ | ⟨q, hq, hqid, hpq⟩
        · exact hact p hp
        · subst hpq
          have : s.instanceStats.lookup q.1 = some q.2 := lookup_eq_of_mem hnd hq
          rw [hqid, hlk] at this
          cases this
          simpa using by omega
  | release id hadError =>
    simp only [poolStep, PoolState.release]
    refine ⟨hsize, hpend, ?_, ?_, ?_⟩
    · dsimp only
      rw [updateStats_keys]
      exact hnd
    · intro p hp
      dsimp only at hp
      rcases mem_updateStats hp with ⟨hp, _⟩ | ⟨q, hq, hqid, hpq⟩
      · exact hkey p hp
      · subst hpq
        exact hqid ▸ hkey q hq
    · intro p hp
      dsimp only at hp
      rcases mem_updateStats hp with ⟨hp, _⟩ | ⟨q, hq, hqid, hpq⟩
      · exact hact p hp
      · subst hpq
        have := hact q hq
        simp only [releaseStats]
        omega
  | refreshDone id ok now =>
    simp only [poolStep, PoolState.refreshDone]
    split
    · split
      · have hsub : ((s.instanceStats.filter (fun p => p.1 ≠ id)).map
            (fun p => p.1)).Sublist (s.instanceStats.map (fun p => p.1)) :=
          (List.filter_sublist _).map _
        refine ⟨?_, hpend, ?_, ?_, ?_⟩
        · simpa [List.length_map] using hsize
        · simp only [List.map_append, List.map_cons, List.map_nil]
          rw [List.nodup_append]
          refine ⟨hnd.sublist hsub, List.nodup_singleton _, ?_⟩
          intro a ha hb
          simp only [List.mem_singleton] at hb
          subst hb
          have ha2 := hsub.mem ha
          obtain ⟨p, hp, hpa⟩ := List.mem_map.mp ha2
          exact absurd (hpa ▸ hkey p hp) (lt_irrefl _)
        · intro p hp
          rcases List.mem_append.mp hp with hp | hp
          · exact Nat.lt_succ_of_lt (hkey p (List.mem_of_mem_filter hp))
          · simp only [List.mem_singleton] at hp
            subst hp
            exact Nat.lt_succ_self _
        · intro p hp
          rcases List.mem_append.mp hp with hp | hp
          · exact hact p (List.mem_of_mem_filter hp)
          · simp only [List.mem_singleton] at hp
            subst hp
            simp [freshStats, MAX_REQUESTS_PER_INSTANCE]
      · exact ⟨hsize, hpend, hnd, hkey, hact⟩
    · exact ⟨hsize, hpend, hnd, hkey, hact⟩

theorem poolInv_run (ops : List PoolOp) (h : ∀ op ∈ ops, op.isAtomic = true) :
    poolInv (poolRun ops) := by
  have haux : ∀ (l : List PoolOp) (s : PoolState), (∀ op ∈ l, op.isAtomic = true) →
      poolInv s → poolInv (l.foldl poolStep s) := by
    intro l
    induction l with
    | nil => intro s _ hs; exact hs
    | cons op rest ih =>
      intro s hl hs
      exact ih _ (fun o ho => hl o (List.mem_cons_of_mem _ ho))
        (poolInv_step s op (hl op (List.mem_cons_self _ _)) hs)
  refine haux ops poolInit h ?_
  refine ⟨by simp [poolInit, POOL_SIZE], rfl, by simp [poolInit], ?_, ?_⟩ <;>
    intro p hp <;> simp [poolInit] at hp

/-- A trace in which one `initialize` creation succeeds and four fail
(partial success is tolerated), then five tasks all run their
`getInstance` selection rounds before any of their `acquire`
continuations performs its increment.  This is the interleaving the
`await` between `getInstance` and `activeRequests++` actually produces
when five requests start together on the resolved `initPromise`. -/
def cex4ops : List PoolOp :=
  [.createDone true 0, .createDone false 0, .createDone false 0, .createDone false 0,
   .createDone false 0,
   .selectStep 1 0, .selectStep 2 0, .selectStep 3 0, .selectStep 4 0, .selectStep 5 0,
   .incrStep 1 0, .incrStep 2 0, .incrStep 3 0, .incrStep 4 0, .incrStep 5 0]

/-- C4 counterexample: a reachable state (five concurrent acquires on a
one-instance pool, all selection rounds running before any increment, as
the suspension point inside `acquire` permits) in which an instance has
`activeRequests = 5`, exceeding `MAX_REQUESTS_PER_INSTANCE = 4`. -/
theorem C4_per_handle_cap_counterexample :
    ¬ (∀ p ∈ (poolRun cex4ops).instanceStats,
        p.2.activeRequests ≤ (MAX_REQUESTS_PER_INSTANCE : Int)) := by decide

/-- C4 amended: the pool-size half of the invariant holds in every
reachable state under every interleaving; the per-handle half
(`activeRequests ≤ MAX_REQUESTS_PER_INSTANCE`) holds provided each
acquire runs its selection round and its increment atomically, with no
other acquire step interleaved between them. -/
theorem C4_pool_bounds_amended :
    (∀ ops : List PoolOp, (poolRun ops).instances.length ≤ POOL_SIZE) ∧
    (∀ ops : List PoolOp, (∀ op ∈ ops, op.isAtomic = true) →
      ∀ p ∈ (poolRun ops).instanceStats,
        p.2.activeRequests ≤ (MAX_REQUESTS_PER_INSTANCE : Int)) := by
  constructor
  · intro ops
    have := poolSize_run ops
    omega
  · intro ops h
    exact (poolInv_run ops h).2.2.2.2

/-- Witness for C4 amended at a concrete atomic trace. -/
theorem C4_pool_bounds_witness :
    ∀ p ∈ (poolRun [PoolOp.createDone true 0, PoolOp.acquireAtomic 1 5,
        PoolOp.release 0 true]).instanceStats,
      p.2.activeRequests ≤ (MAX_REQUESTS_PER_INSTANCE : Int) :=
  C4_pool_bounds_amended.2 _ (by decide)

/-! ### getInstance retry-poll (C5) -/

/-- The `getInstance` retry recursion over a pool state that no other
task is mutating, with an explicit poll budget: an empty pool throws
immediately, a successful selection returns the instance id, and an
empty selection round waits 100 ms and re-enters `getInstance`.  The
result is `none` when the budget is used up with the recursion still
polling, so the call completes within some bound iff there is a budget
for which the result is `some`. -/
def getInstanceLoop (now : Nat) (s : PoolState) : Nat → Option (Except String Nat)
  | 0 => none
  | fuel + 1 =>
    if s.instances.length = 0 then
      some (.error "No YouTube instances available")
    else
      match selectBest now s with
      | some id => some (.ok id)
      | none => getInstanceLoop now s fuel

/-- A pool whose single instance is at its per-instance capacity, so no
instance qualifies in the selection round. -/
def busyPool : PoolState :=
  { createsLeft := 0, instances := [0],
    instanceStats :=
      [(0, { createdAt := 0, requestCount := 0, activeRequests := 4, errors := 0,
             lastUsed := 0 })],
    nextId := 1, pendingAcquire := [] }

theorem getInstanceLoop_busy (n : Nat) : getInstanceLoop 0 busyPool n = none := by
  induction n with
  | zero => rfl
  | succ n ih =>
    rw [getInstanceLoop, if_neg (by decide)]
    rw [show selectBest 0 busyPool = none from by decide]
    exact ih

/-- C5 counterexample: on a non-empty pool whose only instance stays at
capacity, the retry-poll of `getInstance` never completes within any
budget: the wait is unbounded, not bounded. -/
theorem C5_unbounded_poll_counterexample :
    ¬ ∃ n, getInstanceLoop 0 busyPool n ≠ none := by
  rintro ⟨n, hn⟩
  exact hn (getInstanceLoop_busy n)

/-- C5 amended: when the pool contains no instances, `acquire` fails at
once (zero idle retries, no backoff) with the pool-unavailable error;
when instances exist but none qualifies for selection (and no concurrent
release or refresh changes the pool), the 100 ms retry-poll continues
indefinitely: it never completes within any budget. -/
theorem C5_acquire_poll_amended :
    (∀ (now fuel : Nat) (s : PoolState), s.instances.length = 0 →
        getInstanceLoop now s (fuel + 1) =
          some (.error "No YouTube instances available")) ∧
    (∀ (now fuel : Nat) (s : PoolState), s.instances.length ≠ 0 →
        selectBest now s = none → getInstanceLoop now s fuel = none) := by
  constructor
  · intro now fuel s h
    rw [getInstanceLoop, if_pos h]
  · intro now fuel s hne hsel
    induction fuel with
    | zero => rfl
    | succ n ih =>
      rw [getInstanceLoop, if_neg hne, hsel]
      exact ih

/-- Witness for C5 amended: the empty initial pool fails immediately and
the saturated one-instance pool makes no progress within budget 7. -/
theorem C5_acquire_poll_witness :
    getInstanceLoop 0 poolInit 1 = some (.error "No YouTube instances available") ∧
    getInstanceLoop 0 busyPool 7 = none :=
  ⟨C5_acquire_poll_amended.1 0 0 poolInit (by decide),
   C5_acquire_poll_amended.2 0 7 busyPool (by decide) (by decide)⟩

/-- C10: `release` decrements `activeRequests` with a clamp at zero (so
the counter never becomes negative, even across a sequence of releases
exceeding the matching acquires), increments `requestCount`, and
increments `errors` exactly when `hadError` is true. -/
theorem C10_release_clamp (st : InstanceStats) (hadError : Bool) (hs : List Bool)
    (h0 : 0 ≤ st.activeRequests) :
    (releaseStats st hadError).activeRequests = max 0 (st.activeRequests - 1) ∧
    0 ≤ (releaseStats st hadError).activeRequests ∧
    (releaseStats st hadError).requestCount = st.requestCount + 1 ∧
    (releaseStats st hadError).errors = st.errors + (if hadError then 1 else 0) ∧
    0 ≤ (hs.foldl releaseStats st).activeRequests := by
  have hfold : ∀ (l : List Bool) (u : InstanceStats), 0 ≤ u.activeRequests →
      0 ≤ (l.foldl releaseStats u).activeRequests := by
    intro l
    induction l with
    | nil => intro u hu; exact hu
    | cons b rest ih =>
      intro u hu
      refine ih (releaseStats u b) ?_
      simp only [releaseStats]
      omega
  refine ⟨rfl, ?_, rfl, rfl, hfold hs st h0⟩
  simp only [releaseStats]
  omega

/-- Witness for C10 at a fresh stats record and a release sequence longer
than the acquire count. -/
theorem C10_release_clamp_witness :
    (releaseStats (freshStats 0) true).activeRequests =
      max 0 ((freshStats 0).activeRequests - 1) ∧
    0 ≤ (releaseStats (freshStats 0) true).activeRequests ∧
    (releaseStats (freshStats 0) true).requestCount = (freshStats 0).requestCount + 1 ∧
    (releaseStats (freshStats 0) true).errors =
      (freshStats 0).errors + (if true then 1 else 0) ∧
    0 ≤ (([true, false, true] : List Bool).foldl releaseStats (freshStats 0)).activeRequests :=
  C10_release_clamp (freshStats 0) true [true, false, true] (by decide)

/-! ## Channel-video extraction and the growing channel cache

The extraction functions of the channel-all-videos module.  Candidate
video objects are modelled by the identifier fields and presence bits
the extraction guards consult; human-readable presentation fields
(title text, thumbnail URLs, durations, view counts) are outside the
core being verified, so `formatVideo` keeps only the identifier it
validates. -/

/-- Truthiness of an optional JS string field: absent and the empty
string are falsy. -/
def truthyStr : Option String → Option String
  | some s => if s = "" then none else some s
  | none => none

/-- JS `a || b` over string fields. -/
def jsOr2 (a b : Option String) : Option String :=
  match truthyStr a with
  | some s => some s
  | none => truthyStr b

/-- JS `a || b || c` over string fields. -/
def jsOr3 (a b c : Option String) : Option String :=
  match truthyStr a with
  | some s => some s
  | none => jsOr2 b c

structure RawVideo where
  id : Option String
  video_id : Option String
  videoId : Option String
  hasTitle : Bool
  hasThumbnails : Bool
deriving DecidableEq, Repr

/-- The identifier validation of `formatVideo`: exactly 11 characters
matching `[a-zA-Z0-9_-]`. -/
def isValidVideoId (s : String) : Bool :=
  s.length = 11 && s.toList.all (fun c => c.isAlphanum || c = '-' || c = '_')

structure FormattedVideo where
  id : String
deriving DecidableEq, Repr

/-- `formatVideo(v)`: identifier `v.id || v.video_id || v.videoId`,
returning `null` when it is missing, not a string, or fails the
11-character format check. -/
def formatVideo (v : RawVideo) : Option FormattedVideo :=
  match jsOr3 v.id v.video_id v.videoId with
  | none => none
  | some s => if isValidVideoId s then some ⟨s⟩ else none

/-- A node of the `data.contents` / section item trees: its own video
fields, an optional `content` sub-object, and optional `contents` and
`items` child arrays (`none` models an absent/falsy property, `some []`
a present empty array, which JS treats as truthy). -/
inductive Item where
  | mk (video : RawVideo) (content : Option RawVideo)
      (contents : Option (List Item)) (items : Option (List Item))

def Item.video : Item → RawVideo
  | .mk v _ _ _ => v

def Item.content : Item → Option RawVideo
  | .mk _ c _ _ => c

def Item.contents : Item → Option (List Item)
  | .mk _ _ cs _ => cs

def Item.items : Item → Option (List Item)
  | .mk _ _ _ its => its

/-- The argument of `extractVideosFromTab`: the `data.videos` array,
the sections under `data.current_tab.content.contents` (collapsed
optional chain), the `data.contents` tree, and `has_continuation`. -/
structure TabData where
  videos : Option (List RawVideo)
  current_tab : Option (List Item)
  contents : Option (List Item)
  has_continuation : Bool

/-- Method 1 of `extractVideosFromTab`: the direct `data.videos` array.
The seen-set (`seenIds`, a JS `Set`) is threaded explicitly. -/
def extractM1 : List RawVideo → List String → List FormattedVideo × List String
  | [], seen => ([], seen)
  | v :: rest, seen =>
    match jsOr2 v.id v.video_id with
    | some id =>
      if id ∈ seen then extractM1 rest seen
      else
        let r := extractM1 rest (id :: seen)
        match formatVideo v with
        | some f => (f :: r.1, r.2)
        | none => r
    | none => extractM1 rest seen

/-- The item loop of method 2: `const v = item.content || item` and the
same guard as method 1. -/
def extractM2Items : List Item → List String → List FormattedVideo × List String
  | [], seen => ([], seen)
  | it :: rest, seen =>
    let v := it.content.getD it.video
    match jsOr2 v.id v.video_id with
    | some id =>
      if id ∈ seen then extractM2Items rest seen
      else
        let r := extractM2Items rest (id :: seen)
        match formatVideo v with
        | some f => (f :: r.1, r.2)
        | none => r
    | none => extractM2Items rest seen

/-- Method 2: the sections of `data.current_tab.content.contents`, each
contributing `section.contents || section.items || []`. -/
def extractM2 : List Item → List String → List FormattedVideo × List String
  | [], seen => ([], seen)
  | sec :: rest, seen =>
    let its := sec.contents.getD (sec.items.getD [])
    let r1 := extractM2Items its seen
    let r2 := extractM2 rest r1.2
    (r1.1 ++ r2.1, r2.2)

/-- Method 3: the recursive `processContents` walk over `data.contents`:
guard `id && !seenIds.has(id) && (v.title || v.thumbnails)`, then
recursion into `item.contents` and `item.items`. -/
def processContents : List Item → List String → List FormattedVideo × List String
  | [], seen => ([], seen)
  | .mk video content contents items :: rest, seen =>
    let v := content.getD video
    let r1 :=
      match jsOr3 v.id v.video_id v.videoId with
      | some id =>
        if !(seen.contains id) && (v.hasTitle || v.hasThumbnails) then
          match formatVideo v with
          | some f => ([f], id :: seen)
          | none => ([], id :: seen)
        else ([], seen)
      | none => ([], seen)
    let r2 :=
      match contents with
      | some cs => processContents cs r1.2
      | none => ([], r1.2)
    let r3 :=
      match items with
      | some its => processContents its r2.2
      | none => ([], r2.2)
    let r4 := processContents rest r3.2
    (r1.1 ++ r2.1 ++ r3.1 ++ r4.1, r4.2)

/-- `extractVideosFromTab(data, seenIds)`: the three extraction methods
in order over the shared seen-set. -/
def extractVideosFromTab (data : TabData) (seen : List String) :
    List FormattedVideo × List String :=
  let r1 :=
    match data.videos with
    | some vs => extractM1 vs seen
    | none => ([], seen)
  let r2 :=
    match data.current_tab with
    | some sections => extractM2 sections r1.2
    | none => ([], r1.2)
  let r3 :=
    match data.contents with
    | some its => processContents its r2.2
    | none => ([], r2.2)
  (r1.1 ++ r2.1 ++ r3.1, r3.2)

/-! ### Deduplication invariants of the extraction pass (C7) -/

/-- Correctness of one extraction pass relative to the incoming
seen-set: the seen-set only grows, the extracted identifiers are
pairwise distinct, and each extracted identifier is newly recorded
(absent before the pass, present after it). -/
def ExtOK (seen : List String) (out : List FormattedVideo × List String) : Prop :=
  (∀ x ∈ seen, x ∈ out.2) ∧
  (out.1.map (fun f => f.id)).Nodup ∧
  (∀ f ∈ out.1, f.id ∈ out.2 ∧ f.id ∉ seen)

theorem ExtOK.base (seen : List String) : ExtOK seen ([], seen) :=
  ⟨fun _ hx => hx, List.nodup_nil, by simp⟩

/-- Sequential composition of two extraction passes. -/
theorem ExtOK.comp {seen : List String} {r1 r2 : List FormattedVideo × List String}
    (h1 : ExtOK seen r1) (h2 : ExtOK r1.2 r2) :
    ExtOK seen (r1.1 ++ r2.1, r2.2) := by
  obtain ⟨hs1, hn1, hf1⟩ := h1
  obtain ⟨hs2, hn2, hf2⟩ := h2
  refine ⟨fun x hx => hs2 x (hs1 x hx), ?_, ?_⟩
  · simp only [List.map_append]
    rw [List.nodup_append]
    refine ⟨hn1, hn2, ?_⟩
    intro a ha hb
    obtain ⟨f, hf, rfl⟩ := List.mem_map.mp ha
    obtain ⟨g, hg, hfg⟩ := List.mem_map.mp hb
    exact (hf2 g hg).2 (hfg ▸ (hf1 f hf).1)
  · intro f hf
    rcases List.mem_append.mp hf with h | h
    · exact ⟨hs2 _ (hf1 f h).1, (hf1 f h).2⟩
    · exact ⟨(hf2 f h).1, fun hc => (hf2 f h).2 (hs1 _ hc)⟩

theorem jsOr3_of_jsOr2 {a b : Option String} (c : Option String) {s : String}
    (h : jsOr2 a b = some s) : jsOr3 a b c = some s := by
  cases ha : truthyStr a with
  | some t =>
    simp only [jsOr2, ha] at h
    simp only [jsOr3, ha]
    exact h
  | none =>
    simp only [jsOr2, ha] at h
    simp only [jsOr3, jsOr2, ha, h]

/-- The identifier of a formatted video is exactly the identifier that
`v.id || v.video_id || v.videoId` selected. -/
theorem formatVideo_id {v : RawVideo} {f : FormattedVideo}
    (h : formatVideo v = some f) : jsOr3 v.id v.video_id v.videoId = some f.id := by
  cases hj : jsOr3 v.id v.video_id v.videoId with
  | none =>
    simp only [formatVideo, hj] at h
    exact Option.noConfusion h
  | some s =>
    simp only [formatVideo, hj] at h
    by_cases hv : isValidVideoId s = true
    · rw [if_pos hv] at h
      cases h
      rfl
    · rw [if_neg hv] at h
      exact Option.noConfusion h

/-- The common candidate step of methods 1 and 2: identifier check
against the seen-set, immediate `add`, push of the formatted video when
`formatVideo` accepts it. -/
theorem ExtOK.candidate {v : RawVideo} {id : String} {seen : List String}
    {r : List FormattedVideo × List String}
    (hid : jsOr2 v.id v.video_id = some id) (hseen : id ∉ seen)
    (hr : ExtOK (id :: seen) r) :
    ExtOK seen
      (match formatVideo v with
       | some f => (f :: r.1, r.2)
       | none => r) := by
  obtain ⟨hs, hn, hf⟩ := hr
  cases hfv : formatVideo v with
  | none =>
    refine ⟨fun x hx => hs x (List.mem_cons_of_mem _ hx), hn, ?_⟩
    intro f hfmem
    refine ⟨(hf f hfmem).1, fun hc => (hf f hfmem).2 (List.mem_cons_of_mem _ hc)⟩
  | some f =>
    have hfid : f.id = id := by
      have h2 := formatVideo_id hfv
      rw [jsOr3_of_jsOr2 v.videoId hid] at h2
      exact (Option.some.inj h2).symm
    refine ⟨fun x hx => hs x (List.mem_cons_of_mem _ hx), ?_, ?_⟩
    · simp only [List.map_cons, List.nodup_cons]
      refine ⟨?_, hn⟩
      intro hc
      obtain ⟨g, hg, hgid⟩ := List.mem_map.mp hc
      exact (hf g hg).2 (by rw [hgid, hfid]; exact List.mem_cons_self _ _)
    · intro g hg
      rcases List.mem_cons.mp hg with hg | hg
      · subst hg
        exact ⟨hs _ (hfid ▸ List.mem_cons_self _ _), hfid ▸ hseen⟩
      · exact ⟨(hf g hg).1, fun hc => (hf g hg).2 (List.mem_cons_of_mem _ hc)⟩

theorem extractM1_ok : ∀ (vs : List RawVideo) (seen : List String),
    ExtOK seen (extractM1 vs seen) := by
  intro vs
  induction vs with
  | nil => intro seen; exact ExtOK.base seen
  | cons v rest ih =>
    intro seen
    cases hid : jsOr2 v.id v.video_id with
    | none =>
      simp only [extractM1, hid]
      exact ih seen
    | some id =>
      by_cases hseen : id ∈ seen
      · simp only [extractM1, hid, if_pos hseen]
        exact ih seen
      · simp only [extractM1, hid, if_neg hseen]
        exact ExtOK.candidate hid hseen (ih (id :: seen))

theorem extractM2Items_ok : ∀ (its : List Item) (seen : List String),
    ExtOK seen (extractM2Items its seen) := by
  intro its
  induction its with
  | nil => intro seen; exact ExtOK.base seen
  | cons it rest ih =>
    intro seen
    cases hid : jsOr2 (it.content.getD it.video).id (it.content.getD it.video).video_id with
    | none =>
      simp only [extractM2Items, hid]
      exact ih seen
    | some id =>
      by_cases hseen : id ∈ seen
      · simp only [extractM2Items, hid, if_pos hseen]
        exact ih seen
      · simp only [extractM2Items, hid, if_neg hseen]
        exact ExtOK.candidate hid hseen (ih (id :: seen))

theorem extractM2_ok : ∀ (secs : List Item) (seen : List String),
    ExtOK seen (extractM2 secs seen) := by
  intro secs
  induction secs with
  | nil => intro seen; exact ExtOK.base seen
  | cons sec rest ih =>
    intro seen
    simp only [extractM2]
    exact ExtOK.comp (extractM2Items_ok _ seen) (ih _)

/-- A component-level restatement of `ExtOK.comp`. -/
theorem ExtOK.compParts {seen s1 s2 : List String} {v1 v2 : List FormattedVideo}
    (h1 : ExtOK seen (v1, s1)) (h2 : ExtOK s1 (v2, s2)) :
    ExtOK seen (v1 ++ v2, s2) :=
  ExtOK.comp h1 h2

/-- The candidate step of method 3. -/
theorem ExtOK.candidateM3 (v : RawVideo) (seen : List String) :
    ExtOK seen
      (match jsOr3 v.id v.video_id v.videoId with
       | some id =>
         if !(seen.contains id) && (v.hasTitle || v.hasThumbnails) then
           match formatVideo v with
           | some f => ([f], id :: seen)
           | none => ([], id :: seen)
         else ([], seen)
       | none => ([], seen)) := by
  cases hid : jsOr3 v.id v.video_id v.videoId with
  | none => exact ExtOK.base seen
  | some id =>
    show ExtOK seen
      (if !(seen.contains id) && (v.hasTitle || v.hasThumbnails) then
         match formatVideo v with
         | some f => ([f], id :: seen)
         | none => ([], id :: seen)
       else ([], seen))
    cases hc : !(seen.contains id) && (v.hasTitle || v.hasThumbnails) with
    | false =>
      rw [if_neg (by simp)]
      exact ExtOK.base seen
    | true =>
      rw [if_pos rfl]
      have hmem : id ∉ seen := by
        intro hcontra
        have h1 : seen.contains id = true := List.elem_eq_true_of_mem hcontra
        rw [h1] at hc
        simp at hc
      cases hfv : formatVideo v with
      | none =>
        exact ⟨fun x hx => List.mem_cons_of_mem _ hx, List.nodup_nil, by simp⟩
      | some f =>
        have hfid : f.id = id := by
          have h2 := formatVideo_id hfv
          rw [hid] at h2
          exact (Option.some.inj h2).symm
        refine ⟨fun x hx => List.mem_cons_of_mem _ hx, by simp, ?_⟩
        intro g hg
        rcases List.mem_singleton.mp hg with rfl
        exact ⟨hfid ▸ List.mem_cons_self _ _, hfid ▸ hmem⟩

/-- Extraction correctness for an optional child list, given it for
every list the option can hold. -/
theorem ExtOK.optRec (o : Option (List Item))
    (hrec : ∀ cs, o = some cs → ∀ s, ExtOK s (processContents cs s)) (s : List String) :
    ExtOK s
      (match o with
       | some cs => processContents cs s
       | none => ([], s)) := by
  cases o with
  | none => exact ExtOK.base s
  | some cs => exact hrec cs rfl s

theorem processContents_ok_aux : ∀ (n : Nat) (its : List Item), sizeOf its ≤ n →
    ∀ seen, ExtOK seen (processContents its seen) := by
  intro n
  induction n with
  | zero =>
    intro its h seen
    exact absurd h (by cases its <;> simp)
  | succ n ih =>
    intro its h seen
    cases its with
    | nil =>
      simp only [processContents]
      exact ExtOK.base seen
    | cons hd rest =>
      obtain ⟨video, content, contents, items3⟩ := hd
      simp only [List.cons.sizeOf_spec, Item.mk.sizeOf_spec] at h
      cases contents with
      | none =>
        cases items3 with
        | none =>
          simp only [processContents]
          refine ExtOK.compParts (ExtOK.compParts (ExtOK.compParts
            (ExtOK.candidateM3 _ seen) (ExtOK.base _)) (ExtOK.base _)) (ih rest ?_ _)
          omega
        | some its2 =>
          simp only [processContents]
          simp only [Option.some.sizeOf_spec] at h
          refine ExtOK.compParts (ExtOK.compParts (ExtOK.compParts
            (ExtOK.candidateM3 _ seen) (ExtOK.base _)) (ih its2 ?_ _)) (ih rest ?_ _)
          · omega
          · omega
      | some cs =>
        cases items3 with
        | none =>
          simp only [processContents]
          simp only [Option.some.sizeOf_spec] at h
          refine ExtOK.compParts (ExtOK.compParts (ExtOK.compParts
            (ExtOK.candidateM3 _ seen) (ih cs ?_ _)) (ExtOK.base _)) (ih rest ?_ _)
          · omega
          · omega
        | some its2 =>
          simp only [processContents]
          simp only [Option.some.sizeOf_spec] at h
          refine ExtOK.compParts (ExtOK.compParts (ExtOK.compParts
            (ExtOK.candidateM3 _ seen) (ih cs ?_ _)) (ih its2 ?_ _)) (ih rest ?_ _)
          · omega
          · omega
          · omega

theorem processContents_ok (its : List Item) (seen : List String) :
    ExtOK seen (processContents its seen) :=
  processContents_ok_aux (sizeOf its) its (le_refl _) seen

theorem ExtOK.optCasesM1 (o : Option (List RawVideo)) (s : List String) :
    ExtOK s
      (match o with
       | some vs => extractM1 vs s
       | none => ([], s)) := by
  cases o with
  | none => exact ExtOK.base s
  | some vs => exact extractM1_ok vs s

theorem ExtOK.optCasesM2 (o : Option (List Item)) (s : List String) :
    ExtOK s
      (match o with
       | some sections => extractM2 sections s
       | none => ([], s)) := by
  cases o with
  | none => exact ExtOK.base s
  | some sections => exact extractM2_ok sections s

theorem ExtOK.optCasesM3 (o : Option (List Item)) (s : List String) :
    ExtOK s
      (match o with
       | some its => processContents its s
       | none => ([], s)) := by
  cases o with
  | none => exact ExtOK.base s
  | some its => exact processContents_ok its s

theorem extractVideosFromTab_ok (data : TabData) (seen : List String) :
    ExtOK seen (extractVideosFromTab data seen) := by
  simp only [extractVideosFromTab]
  exact ExtOK.compParts (ExtOK.compParts (ExtOK.optCasesM1 data.videos seen)
    (ExtOK.optCasesM2 data.current_tab _)) (ExtOK.optCasesM3 data.contents _)

/-! ### The channel cache entry and its merge step (C7) -/

/-- The per-channel cache entry created by `initCache` in the
channel-all-videos module. -/
structure ChannelCacheEntry where
  videos : List FormattedVideo
  seenIds : List String
  isComplete : Bool
  isFetching : Bool
  lastUpdate : Nat
  error : Option String
deriving DecidableEq, Repr

/-- The fresh entry `initCache` stores on a miss. -/
def initCacheEntry (now : Nat) : ChannelCacheEntry :=
  { videos := [], seenIds := [], isComplete := false, isFetching := false,
    lastUpdate := now, error := none }

/-- One merge step of the fetch loops in `backgroundFetchVideos`:
`const pageVideos = extractVideosFromTab(videosTab, cache.seenIds);
cache.videos.push(...pageVideos); cache.lastUpdate = Date.now()`. -/
def mergeTabPage (c : ChannelCacheEntry) (tab : TabData) (now : Nat) : ChannelCacheEntry :=
  let r := extractVideosFromTab tab c.seenIds
  { c with videos := c.videos ++ r.1, seenIds := r.2, lastUpdate := now }

/-- The dedup invariant of a cache entry: no two stored items share an
identifier, and every stored identifier is recorded in `seenIds`. -/
def EntryOK (c : ChannelCacheEntry) : Prop :=
  (c.videos.map (fun f => f.id)).Nodup ∧ ∀ f ∈ c.videos, f.id ∈ c.seenIds

theorem EntryOK_mergeTabPage (c : ChannelCacheEntry) (tab : TabData) (now : Nat)
    (h : EntryOK c) : EntryOK (mergeTabPage c tab now) := by
  obtain ⟨hnd, hseen⟩ := h
  obtain ⟨hs, hn, hf⟩ := extractVideosFromTab_ok tab c.seenIds
  constructor
  · show ((c.videos ++ (extractVideosFromTab tab c.seenIds).1).map (fun f => f.id)).Nodup
    rw [List.map_append, List.nodup_append]
    refine ⟨hnd, hn, ?_⟩
    intro a ha hb
    obtain ⟨f, hfmem, rfl⟩ := List.mem_map.mp ha
    obtain ⟨g, hgmem, hga⟩ := List.mem_map.mp hb
    exact (hf g hgmem).2 (hga ▸ hseen f hfmem)
  · intro f hfm
    rcases List.mem_append.mp hfm with hm | hm
    · exact hs _ (hseen f hm)
    · exact (hf f hm).1

/-- C7: for every entry of the growing channel-video cache, a merge step
skips every candidate whose identifier is already in the dedup set, so
the stored item list never contains two items with the same identifier,
and the item count is monotonically non-decreasing (the step only
appends) while the fetching flag stays true; the invariant holds for
every entry built from `initCache` by any sequence of page merges. -/
theorem C7_cache_dedup_monotone :
    (∀ (c : ChannelCacheEntry) (tab : TabData) (now : Nat),
        EntryOK c → c.isFetching = true →
          EntryOK (mergeTabPage c tab now) ∧
          c.videos.length ≤ (mergeTabPage c tab now).videos.length ∧
          (mergeTabPage c tab now).isFetching = true) ∧
    (∀ (t0 : Nat) (pages : List (TabData × Nat)),
        EntryOK (pages.foldl (fun e p => mergeTabPage e p.1 p.2) (initCacheEntry t0))) := by
  constructor
  · intro c tab now hinv hfetch
    refine ⟨EntryOK_mergeTabPage c tab now hinv, ?_, ?_⟩
    · show c.videos.length ≤ (c.videos ++ (extractVideosFromTab tab c.seenIds).1).length
      rw [List.length_append]
      omega
    · exact hfetch
  · intro t0 pages
    have haux : ∀ (l : List (TabData × Nat)) (e : ChannelCacheEntry), EntryOK e →
        EntryOK (l.foldl (fun e p => mergeTabPage e p.1 p.2) e) := by
      intro l
      induction l with
      | nil => intro e he; exact he
      | cons p rest ih =>
        intro e he
        exact ih _ (EntryOK_mergeTabPage e p.1 p.2 he)
    exact haux pages _ ⟨List.nodup_nil, by simp [initCacheEntry]⟩

/-- A cache entry mid-fetch holding one valid video, and an upstream tab
with no extractable content, used to witness C7. -/
def c7entry : ChannelCacheEntry :=
  { videos := [⟨"abcdefghijk"⟩], seenIds := ["abcdefghijk"], isComplete := false,
    isFetching := true, lastUpdate := 0, error := none }

def c7tab : TabData :=
  { videos := none, current_tab := none, contents := none, has_continuation := true }

/-- Witness for C7 at a concrete entry, tab and merge sequence. -/
theorem C7_cache_dedup_monotone_witness :
    (EntryOK (mergeTabPage c7entry c7tab 9) ∧
      c7entry.videos.length ≤ (mergeTabPage c7entry c7tab 9).videos.length ∧
      (mergeTabPage c7entry c7tab 9).isFetching = true) ∧
    EntryOK ([(c7tab, 3)].foldl (fun e p => mergeTabPage e p.1 p.2) (initCacheEntry 0)) :=
  ⟨C7_cache_dedup_monotone.1 c7entry c7tab 9 ⟨by decide, by decide⟩ rfl,
   C7_cache_dedup_monotone.2 0 [(c7tab, 3)]⟩

/-! ### The pagination loops (C6) -/

/-- The main pagination loop of `backgroundFetchVideos` (the
`getVideos()` path): `while (pageCount < 1000 && consecutiveEmpty < 5)`,
one merge per iteration, `consecutiveEmpty` incremented on pages with no
new videos and reset otherwise, and exit as soon as the current tab has
no continuation or `getContinuation()` throws.  `tabs k` is the tab
holding page number `k` in the continuation chain and `contOk k` is
whether the `getContinuation()` call after that page succeeds.  The
result is the final cache entry plus the number of pages fetched. -/
def backgroundFetchLoop (tabs : Nat → TabData) (contOk : Nat → Bool)
    (c : ChannelCacheEntry) (now : Nat) (pageCount consecutiveEmpty : Nat) :
    ChannelCacheEntry × Nat :=
  if _h : pageCount < 1000 ∧ consecutiveEmpty < 5 then
    let tab := tabs pageCount
    let beforeCount := c.videos.length
    let c2 := mergeTabPage c tab now
    let newCount := c2.videos.length - beforeCount
    let consec2 := if newCount = 0 then consecutiveEmpty + 1 else 0
    if tab.has_continuation = false then (c2, pageCount + 1)
    else if contOk pageCount then
      backgroundFetchLoop tabs contOk c2 now (pageCount + 1) consec2
    else (c2, pageCount + 1)
  else (c, pageCount)
termination_by 1000 - pageCount
decreasing_by omega

/-- The loop of `backgroundFetchSearch`:
`while (results.length < MAX_RESULTS_PER_SEARCH &&
searchData.has_continuation && pages < maxPages)` with `maxPages = 20`;
`fetchPage k = none` models a `getContinuation()` throw, and
`some (hasCont, more)` gives the next continuation state and the newly
extracted results; a page with zero new results breaks the loop. -/
def backgroundFetchSearchLoop {α : Type} (fetchPage : Nat → Option (Bool × List α))
    (results : List α) (hasCont : Bool) (pages : Nat) : List α × Nat :=
  if _h : results.length < MAX_RESULTS_PER_SEARCH ∧ hasCont = true ∧ pages < 20 then
    match fetchPage pages with
    | none => (results, pages)
    | some (hasCont2, more) =>
      if more.length = 0 then (results, pages)
      else backgroundFetchSearchLoop fetchPage (results ++ more) hasCont2 (pages + 1)
  else (results, pages)
termination_by 20 - pages
decreasing_by omega

theorem backgroundFetchLoop_le (tabs : Nat → TabData) (contOk : Nat → Bool) (now : Nat) :
    ∀ (n pageCount consecutiveEmpty : Nat) (c : ChannelCacheEntry),
      1000 - pageCount = n → pageCount ≤ 1000 →
      (backgroundFetchLoop tabs contOk c now pageCount consecutiveEmpty).2 ≤ 1000 := by
  intro n
  induction n with
  | zero =>
    intro pageCount consecutiveEmpty c hn hle
    have : ¬ (pageCount < 1000 ∧ consecutiveEmpty < 5) := by omega
    rw [backgroundFetchLoop, dif_neg this]
    exact hle
  | succ n ih =>
    intro pageCount consecutiveEmpty c hn hle
    rw [backgroundFetchLoop]
    by_cases hg : pageCount < 1000 ∧ consecutiveEmpty < 5
    · rw [dif_pos hg]
      dsimp only
      split
      · dsimp only
        omega
      · split
        · exact ih (pageCount + 1) _ _ (by omega) (by omega)
        · dsimp only
          omega
    · rw [dif_neg hg]
      exact hle

/-- The tab an upstream returns when a page carries a continuation but
no extractable items. -/
def emptyTabData : TabData :=
  { videos := none, current_tab := none, contents := none, has_continuation := true }

theorem mergeTabPage_empty (c : ChannelCacheEntry) (now : Nat) :
    (mergeTabPage c emptyTabData now).videos = c.videos ∧
    (mergeTabPage c emptyTabData now).seenIds = c.seenIds := by
  constructor
  · show c.videos ++ (extractVideosFromTab emptyTabData c.seenIds).1 = c.videos
    simp [extractVideosFromTab, emptyTabData]
  · rfl

theorem backgroundFetchLoop_stuck (now : Nat) :
    ∀ (d pageCount consecutiveEmpty : Nat) (c : ChannelCacheEntry),
      consecutiveEmpty + d = 5 → pageCount + d ≤ 1000 →
      (backgroundFetchLoop (fun _ => emptyTabData) (fun _ => true)
          c now pageCount consecutiveEmpty).2 = pageCount + d := by
  intro d
  induction d with
  | zero =>
    intro pageCount consecutiveEmpty c hce hpc
    have : ¬ (pageCount < 1000 ∧ consecutiveEmpty < 5) := by omega
    rw [backgroundFetchLoop, dif_neg this]
    dsimp only
    omega
  | succ d ih =>
    intro pageCount consecutiveEmpty c hce hpc
    have hg : pageCount < 1000 ∧ consecutiveEmpty < 5 := by omega
    rw [backgroundFetchLoop, dif_pos hg]
    have hnew : (mergeTabPage c emptyTabData now).videos.length - c.videos.length = 0 := by
      rw [(mergeTabPage_empty c now).1]
      omega
    dsimp only
    rw [hnew, if_pos rfl]
    rw [if_neg (by simp [emptyTabData])]
    rw [if_pos rfl]
    rw [ih (pageCount + 1) (consecutiveEmpty + 1) (mergeTabPage c emptyTabData now)
      (by omega) (by omega)]
    omega

theorem backgroundFetchSearchLoop_le {α : Type} (fetchPage : Nat → Option (Bool × List α)) :
    ∀ (n pages : Nat) (results : List α) (hasCont : Bool),
      20 - pages = n → pages ≤ 20 →
      (backgroundFetchSearchLoop fetchPage results hasCont pages).2 ≤ 20 := by
  intro n
  induction n with
  | zero =>
    intro pages results hasCont hn hle
    have : ¬ (results.length < MAX_RESULTS_PER_SEARCH ∧ hasCont = true ∧ pages < 20) := by
      omega
    rw [backgroundFetchSearchLoop, dif_neg this]
    exact hle
  | succ n ih =>
    intro pages results hasCont hn hle
    rw [backgroundFetchSearchLoop]
    by_cases hg : results.length < MAX_RESULTS_PER_SEARCH ∧ hasCont = true ∧ pages < 20
    · rw [dif_pos hg]
      split
      · exact hle
      · split
        · exact hle
        · exact ih (pages + 1) _ _ (by omega) (by omega)
    · rw [dif_neg hg]
      exact hle

/-- C6: the per-page fetch loops terminate with a bounded page count:
the channel-video loop stops when the continuation is absent (one page),
when five consecutive pages yield zero new items (five pages for a
cursor chain of contentless pages), and in every case fetches at most
the 1000-page cap even for a cursor sequence that never ends naturally;
the background search loop likewise fetches at most its 20-page cap. -/
theorem C6_pagination_bounded :
    (∀ (tabs : Nat → TabData) (contOk : Nat → Bool) (c : ChannelCacheEntry) (now : Nat),
        (backgroundFetchLoop tabs contOk c now 0 0).2 ≤ 1000) ∧
    (∀ (tabs : Nat → TabData) (contOk : Nat → Bool) (c : ChannelCacheEntry) (now : Nat),
        (tabs 0).has_continuation = false →
        (backgroundFetchLoop tabs contOk c now 0 0).2 = 1) ∧
    (∀ (c : ChannelCacheEntry) (now : Nat),
        (backgroundFetchLoop (fun _ => emptyTabData) (fun _ => true) c now 0 0).2 = 5) ∧
    (∀ (α : Type) (fetchPage : Nat → Option (Bool × List α)) (results : List α)
        (hasCont : Bool),
        (backgroundFetchSearchLoop fetchPage results hasCont 0).2 ≤ 20) := by
  refine ⟨?_, ?_, ?_, ?_⟩
  · intro tabs contOk c now
    exact backgroundFetchLoop_le tabs contOk now 1000 0 0 c rfl (by omega)
  · intro tabs contOk c now hnc
    rw [backgroundFetchLoop, dif_pos (by omega : (0 : Nat) < 1000 ∧ (0 : Nat) < 5)]
    rw [if_pos hnc]
  · intro c now
    exact backgroundFetchLoop_stuck now 5 0 0 c rfl (by omega)
  · intro α fetchPage results hasCont
    exact backgroundFetchSearchLoop_le fetchPage 20 0 results hasCont rfl (by omega)

/-- Witness for C6: a chain that ends immediately fetches one page, and
a contentless unending chain stops at five. -/
theorem C6_pagination_bounded_witness :
    (backgroundFetchLoop (fun _ => TabData.mk none none none false) (fun _ => true)
        (initCacheEntry 0) 0 0 0).2 = 1 ∧
    (backgroundFetchLoop (fun _ => emptyTabData) (fun _ => true)
        (initCacheEntry 0) 0 0 0).2 = 5 :=
  ⟨C6_pagination_bounded.2.1 _ _ (initCacheEntry 0) 0 rfl,
   C6_pagination_bounded.2.2.1 (initCacheEntry 0) 0⟩

/-! ## findContinuationToken (continuation walker)

A generic JS value tree: strings, other scalars collapsed to their
truthiness, arrays, and objects as key-ordered field lists (JS object
key iteration follows insertion order for string keys). -/

inductive JVal where
  | str (s : String)
  | prim (truthy : Bool)
  | arr (elems : List JVal)
  | obj (fields : List (String × JVal))

def JVal.truthy : JVal → Bool
  | .str s => s ≠ ""
  | .prim b => b
  | .arr _ => true
  | .obj _ => true

/-- Property access `obj[key]` on an object value. -/
def getField (fs : List (String × JVal)) (k : String) : Option JVal :=
  fs.lookup k

/-- The check `obj.token && typeof obj.token === 'string' &&
obj.token.length > 20`. -/
def checkToken (fs : List (String × JVal)) : Option JVal :=
  match getField fs "token" with
  | some (.str s) => if s.length > 20 then some (.str s) else none
  | _ => none

/-- The check `obj.continuation && typeof obj.continuation === 'string'`
(no length bound in the channel-all-videos version). -/
def checkContinuation (fs : List (String × JVal)) : Option JVal :=
  match getField fs "continuation" with
  | some (.str s) => if s = "" then none else some (.str s)
  | _ => none

/-- The check `obj.continuationCommand?.token`. -/
def checkContinuationCommand (fs : List (String × JVal)) : Option JVal :=
  match getField fs "continuationCommand" with
  | some (.obj gs) =>
    match getField gs "token" with
    | some t => if t.truthy then some t else none
    | none => none
  | _ => none

/-- The three self-checks at the top of `findContinuationToken`, tried
in order. -/
def tokenSelfCheck (fs : List (String × JVal)) : Option JVal :=
  match checkToken fs with
  | some t => some t
  | none =>
    match checkContinuation fs with
    | some t => some t
    | none => checkContinuationCommand fs

/-- The key skip `key.startsWith` applied to the underscore prefix,
written on the character list so that it evaluates by kernel
reduction. -/
def underscorePrefixed (k : String) : Bool :=
  match k.data with
  | [] => false
  | c :: _ => c = '_'

/-- The traversal of `findContinuationToken`, recursing on the remaining
depth budget: the source guard `if (!obj || typeof obj !== 'object' ||
depth > 15) return null` gives a call at depth `d` a budget of `16 - d`
levels (its own included), and every recursive call runs at `depth + 1`,
budget one less.  Order: self-checks, then array elements in index
order, then object fields in key-iteration order, skipping
underscore-prefixed keys, first hit wins. -/
def findTokenAux : Nat → JVal → Option JVal
  | 0, _ => none
  | _ + 1, .str _ => none
  | _ + 1, .prim _ => none
  | budget + 1, .arr xs => xs.findSome? (fun x => findTokenAux budget x)
  | budget + 1, .obj fs =>
    match tokenSelfCheck fs with
    | some t => some t
    | none =>
      fs.findSome? (fun p =>
        if underscorePrefixed p.1 then none else findTokenAux budget p.2)

/-- `findContinuationToken(obj, depth)` of the channel-all-videos
module. -/
def findContinuationToken (v : JVal) (depth : Nat) : Option JVal :=
  findTokenAux (16 - depth) v

/-- A long continuation token (26 characters, over the 20-character
bound). -/
def tokenString : String := "ABCDEFGHIJKLMNOPQRSTUVWXYZ"

/-- An object carrying the token in its `token` property. -/
def tokenLeaf : JVal := .obj [("token", .str tokenString)]

/-- Nest a value under `n` single-field wrapper objects. -/
def nestObj : Nat → JVal → JVal
  | 0, v => v
  | n + 1, v => .obj [("wrap", nestObj n v)]

/-- C8: the walker returns absent for every node examined at a depth
beyond the `maxDepth` bound of 15 (so a token buried deeper than the
bound is never found, and the traversal terminates on arbitrarily deep
input), it skips underscore-prefixed keys, and it visits the node itself
(the three token self-checks) first, then array elements in index
order, then object field values in key-iteration order, returning the
first hit. -/
theorem C8_walker_order_and_depth :
    (∀ (v : JVal) (d : Nat), d > 15 → findContinuationToken v d = none) ∧
    (∀ (fs : List (String × JVal)) (d : Nat), d ≤ 15 →
      findContinuationToken (.obj fs) d =
        (match tokenSelfCheck fs with
         | some t => some t
         | none =>
           fs.findSome? (fun p =>
             if underscorePrefixed p.1 then none
             else findContinuationToken p.2 (d + 1)))) ∧
    (∀ (xs : List JVal) (d : Nat), d ≤ 15 →
      findContinuationToken (.arr xs) d =
        xs.findSome? (fun x => findContinuationToken x (d + 1))) ∧
    findContinuationToken (nestObj 16 tokenLeaf) 0 = none ∧
    findContinuationToken (nestObj 15 tokenLeaf) 0 = some (.str tokenString) ∧
    findContinuationToken (.obj [("_hidden", tokenLeaf)]) 0 = none ∧
    findContinuationToken (.obj [("shown", tokenLeaf)]) 0 = some (.str tokenString) ∧
    findContinuationToken
        (.obj [("child", .obj [("token", .str "abcdefghijklmnopqrstuvwxyz")]),
               ("token", .str tokenString)]) 0 = some (.str tokenString) ∧
    findContinuationToken
        (.arr [.obj [("token", .str "abcdefghijklmnopqrstuvwxyz")], tokenLeaf]) 0 =
      some (.str "abcdefghijklmnopqrstuvwxyz") ∧
    findContinuationToken
        (.obj [("b", .obj [("token", .str "abcdefghijklmnopqrstuvwxyz")]),
               ("a", tokenLeaf)]) 0 = some (.str "abcdefghijklmnopqrstuvwxyz") := by
  refine ⟨?_, ?_, ?_, by rfl, by rfl, by rfl, by rfl, by rfl, by rfl, by rfl⟩
  · intro v d hd
    unfold findContinuationToken
    rw [show 16 - d = 0 from by omega]
    rfl
  · intro fs d hd
    unfold findContinuationToken
    simp only [show 16 - (d + 1) = 15 - d from by omega]
    rw [show 16 - d = (15 - d) + 1 from by omega]
    rfl
  · intro xs d hd
    unfold findContinuationToken
    simp only [show 16 - (d + 1) = 15 - d from by omega]
    rw [show 16 - d = (15 - d) + 1 from by omega]
    rfl

/-- Witness for C8 at concrete depths. -/
theorem C8_walker_order_and_depth_witness :
    findContinuationToken tokenLeaf 16 = none ∧
    findContinuationToken (.arr [tokenLeaf]) 3 =
      [tokenLeaf].findSome? (fun x => findContinuationToken x 4) ∧
    findContinuationToken (.obj [("k", tokenLeaf)]) 3 =
      (match tokenSelfCheck [("k", tokenLeaf)] with
       | some t => some t
       | none =>
         [("k", tokenLeaf)].findSome? (fun p : String × JVal =>
           if underscorePrefixed p.1 then none
           else findContinuationToken p.2 (3 + 1))) :=
  ⟨C8_walker_order_and_depth.1 tokenLeaf 16 (by omega),
   C8_walker_order_and_depth.2.2.1 [tokenLeaf] 3 (by omega),
   C8_walker_order_and_depth.2.1 [("k", tokenLeaf)] 3 (by omega)⟩

/-! ## FastCache and the channel cache map (C9) -/

/-- An entry of `FastCache`: the cached data plus the timestamp of the
`set` that stored it. -/
structure FastCacheEntry (α : Type) where
  data : α
  ts : Nat
deriving DecidableEq, Repr

/-- The `FastCache` class: a keyed map plus the construction-time TTL. -/
structure FastCache (α : Type) where
  cache : List (String × FastCacheEntry α)
  ttl : Nat
deriving DecidableEq, Repr

/-- `FastCache.get` at time `now` (`Date.now()`): a hit within the TTL
returns the data; an entry whose age exceeds the TTL is deleted and the
lookup reports a miss.  The decision reads only the stored timestamp,
never the data and never any in-flight fetch bookkeeping. -/
def FastCache.get {α : Type} (c : FastCache α) (now : Nat) (key : String) :
    Option α × FastCache α :=
  match c.cache.lookup key with
  | none => (none, c)
  | some e =>
    if now - e.ts > c.ttl then
      (none, { c with cache := c.cache.filter (fun p => p.1 ≠ key) })
    else (some e.data, c)

/-- `FastCache.set` at time `now` (JS `Map.set`: keyed replacement; the
iteration order of the map is irrelevant to the verified lookups). -/
def FastCache.set {α : Type} (c : FastCache α) (now : Nat) (key : String) (data : α) :
    FastCache α :=
  { c with cache := (c.cache.filter (fun p => p.1 ≠ key)) ++ [(key, ⟨data, now⟩)] }

/-- `initCache(channelId)` of the channel-all-videos module: return the
existing entry when the key is present, whatever its age (this cache
has no TTL logic anywhere), otherwise create and store a fresh one. -/
def initCache (m : List (String × ChannelCacheEntry)) (channelId : String) (now : Nat) :
    List (String × ChannelCacheEntry) × ChannelCacheEntry :=
  match m.lookup channelId with
  | some e => (m, e)
  | none => (m ++ [(channelId, initCacheEntry now)], initCacheEntry now)

/-- A search-cache state whose single entry was last written at time 0
with the fetch still incomplete, together with the `activeFetches` set
marking the in-flight background fetch for the same key. -/
def staleFetchingCache : FastCache Bool :=
  { cache := [("q", { data := false, ts := 0 })], ttl := 100 }

def staleActiveFetches : List String := ["q"]

/-- C9 counterexample: the claimed fetching-flag exception does not
exist in the code.  A `FastCache` lookup past the TTL misses (and
evicts) even while a background fetch for that key is in flight; and the
channel-video cache never expires at all: a lookup far beyond any TTL,
with no fetch in flight, still observes the old entry. -/
theorem C9_ttl_counterexample :
    ("q" ∈ staleActiveFetches ∧ (staleFetchingCache.get 101 "q").1 = none) ∧
    ((initCache [("UC1", initCacheEntry 0)] "UC1" (CACHE_EXPIRY + 1000000)).2 =
        initCacheEntry 0 ∧
      (initCacheEntry 0).isFetching = false ∧
      CACHE_EXPIRY + 1000000 - (initCacheEntry 0).lastUpdate > CACHE_EXPIRY) := by
  refine ⟨⟨by decide, by decide⟩, by decide, by decide, by decide⟩

theorem lookup_filter_ne {β : Type} (l : List (String × β)) (key : String) :
    (l.filter (fun p => p.1 ≠ key)).lookup key = none := by
  induction l with
  | nil => rfl
  | cons hd tl ih =>
    obtain ⟨k, v⟩ := hd
    by_cases hk : k = key
    · have hdec : (decide ((k, v).1 ≠ key)) = false := by simp [hk]
      simp only [List.filter_cons, hdec, Bool.false_eq_true, if_false]
      exact ih
    · have hdec : (decide ((k, v).1 ≠ key)) = true := by simp [hk]
      simp only [List.filter_cons, hdec, if_true]
      have hbeq : (key == k) = false :=
        beq_eq_false_iff_ne.mpr (fun hcontra => hk hcontra.symm)
      simp only [List.lookup, hbeq]
      exact ih

/-- C9 amended: the `FastCache` family (search, video, comment caches)
expires entries lazily, a TTL after the last `set`, with no exception
for in-flight fetches: an expired lookup misses and evicts regardless
of any fetch state, and an unexpired lookup hits; the channel-video
cache of the channel-all-videos module has no TTL at all: `initCache`
returns an existing entry unchanged no matter how old it is. -/
theorem C9_ttl_amended :
    (∀ (α : Type) (c : FastCache α) (now : Nat) (key : String) (e : FastCacheEntry α),
        c.cache.lookup key = some e → now - e.ts > c.ttl →
          (c.get now key).1 = none ∧ (c.get now key).2.cache.lookup key = none) ∧
    (∀ (α : Type) (c : FastCache α) (now : Nat) (key : String) (e : FastCacheEntry α),
        c.cache.lookup key = some e → ¬ (now - e.ts > c.ttl) →
          (c.get now key).1 = some e.data) ∧
    (∀ (m : List (String × ChannelCacheEntry)) (cid : String) (now : Nat)
        (e : ChannelCacheEntry),
        m.lookup cid = some e → initCache m cid now = (m, e)) := by
  refine ⟨?_, ?_, ?_⟩
  · intro α c now key e hlk htl
    constructor
    · simp only [FastCache.get, hlk, if_pos htl]
    · simp only [FastCache.get, hlk, if_pos htl]
      exact lookup_filter_ne c.cache key
  · intro α c now key e hlk htl
    simp only [FastCache.get, hlk, if_neg htl]
  · intro m cid now e hlk
    simp only [initCache, hlk]

/-- Witness for C9 amended: an expired lookup on the stale fetching
entry misses and evicts, an unexpired one hits, and the channel cache
returns the aged entry unchanged. -/
theorem C9_ttl_witness :
    ((staleFetchingCache.get 101 "q").1 = none ∧
      (staleFetchingCache.get 101 "q").2.cache.lookup "q" = none) ∧
    (staleFetchingCache.get 50 "q").1 = some false ∧
    initCache [("UC1", initCacheEntry 0)] "UC1" 999 =
      ([("UC1", initCacheEntry 0)], initCacheEntry 0) :=
  ⟨C9_ttl_amended.1 Bool staleFetchingCache 101 "q" ⟨false, 0⟩ (by decide) (by decide),
   C9_ttl_amended.2.1 Bool staleFetchingCache 50 "q" ⟨false, 0⟩ (by decide) (by decide),
   C9_ttl_amended.2.2 _ "UC1" 999 (initCacheEntry 0) (by decide)⟩

end YoutubeI

